import Mathlib

/-!
Verification of the Zyphar incremental synthesis cache

A shallow embedding of the Zyphar module cache (`ZypharModuleCache`), the
change monitor (`ZypharChangeMonitor`), the dependency graph
(`ZypharDependencyGraph`) and the conservative-widening step of the
incremental driver (`zyphar_synth`), together with proofs of the spec's
quantified invariants.

Modelling conventions:
* `std::map<std::string, T>` is modelled as an association list
  `List (String × T)`; all reachable states keep the keys distinct, and the
  operations below are written so that they agree with the C++ map
  behaviour on such states.
* `uint64_t` values are modelled as `Nat` (with explicit `% 2 ^ 64` where
  C++ overflow occurs), `time_t` as `Int`.
* Filesystem reads/writes and the RTLIL (de)serializer are external to the
  cache; they enter the model as explicit oracle arguments
  (`String → Option String` for reads, `String → Bool` for write success,
  `Option String` for a serializer outcome where `none` models a thrown
  exception).
-/

namespace Zyphar

/-- Model of `ZypharCacheEntry` from `kernel/zyphar_cache.h`. -/
structure ZypharCacheEntry where
  module_name : String
  content_hash : Nat
  pass_sequence : String
  json_data : String
  timestamp : Int
  hit_count : Nat
deriving Repr, DecidableEq

/-- The mutable state of `ZypharModuleCache` (fields of the C++ class).
`entries` models `entries_` (a `std::map` keyed by the canonical key
string), `module_json_cache` models `module_json_cache_`. -/
structure CacheState where
  entries : List (String × ZypharCacheEntry)
  module_json_cache : List (String × String)
  cache_dir : String
  dirty : Bool
  max_entries : Nat
  max_size_bytes : Nat
  max_age_seconds : Int
  total_hits : Nat
  total_misses : Nat
deriving Repr, DecidableEq

/-- Association-list lookup, the model of `std::map::find` /
`std::map::count`. -/
def lookupKey {β : Type} : List (String × β) → String → Option β
  | [], _ => none
  | (k, v) :: rest, key => if k = key then some v else lookupKey rest key

/-- Association-list update, the model of `map[key] = value` (replace the
binding if the key is present, append it otherwise). -/
def insertEntry {β : Type} : List (String × β) → String → β → List (String × β)
  | [], key, value => [(key, value)]
  | (k, v) :: rest, key, value =>
      if k = key then (key, value) :: rest else (k, v) :: insertEntry rest key value

/-- Lowercase hex rendering of a `Nat`, the model of `std::hex` output for a
`uint64_t` (minimal digits, `"0"` for zero). -/
def hexString (n : Nat) : String := String.mk (Nat.toDigits 16 n)

/-- Model of `ZypharModuleCache::make_key`:
`module_name + "|" + hex(hash) + "|" + pass_seq`. -/
def make_key (module_name : String) (hash : Nat) (pass_seq : String) : String :=
  module_name ++ "|" ++ hexString hash ++ "|" ++ pass_seq

/-- Model of `ZypharModuleCache::get_module_path`: folds `hash = hash * 31 + c` over
the key (with `uint64_t` wraparound) and renders
`<cache_dir>/modules/<hex>.json`. -/
def get_module_path (cache_dir : String) (key : String) : String :=
  let h := key.data.foldl (fun h c => (h * 31 + c.toNat) % 2 ^ 64) 0
  cache_dir ++ "/modules/" ++ hexString h ++ ".json"

/-- Model of `ZypharModuleCache::has`: reports key existence and bumps the aggregate
hit/miss counters (the entry map itself is untouched; the counters are
`mutable` in the C++ class). -/
def hasOp (s : CacheState) (module_name : String) (hash : Nat) (pass_seq : String) :
    Bool × CacheState :=
  let key := make_key module_name hash pass_seq
  let found := (lookupKey s.entries key).isSome
  (found,
    if found then { s with total_hits := s.total_hits + 1 }
    else { s with total_misses := s.total_misses + 1 })

/-- Increment the per-entry hit counter at `key`, the model of the
`const_cast` increment inside `ZypharModuleCache::get`. -/
def bumpHit (l : List (String × ZypharCacheEntry)) (key : String) :
    List (String × ZypharCacheEntry) :=
  l.map fun p => if p.1 = key then (p.1, { p.2 with hit_count := p.2.hit_count + 1 }) else p

/-- Model of `ZypharModuleCache::get`: on a hit increments the entry's `hit_count`
and the aggregate hit counter and returns the (updated) entry; on a miss
increments the aggregate miss counter. -/
def getOp (s : CacheState) (module_name : String) (hash : Nat) (pass_seq : String) :
    Option ZypharCacheEntry × CacheState :=
  let key := make_key module_name hash pass_seq
  match lookupKey s.entries key with
  | some e =>
      (some { e with hit_count := e.hit_count + 1 },
       { s with entries := bumpHit s.entries key, total_hits := s.total_hits + 1 })
  | none => (none, { s with total_misses := s.total_misses + 1 })

/-- Approximate per-entry size used by `total_size_bytes`: serialized data
plus key, module name and pass-sequence strings. -/
def entrySize (p : String × ZypharCacheEntry) : Nat :=
  p.2.json_data.length + p.1.length + p.2.module_name.length + p.2.pass_sequence.length

/-- Model of `ZypharModuleCache::total_size_bytes`. -/
def total_size_bytes (s : CacheState) : Nat :=
  (s.entries.map entrySize).sum

/-- The strict `(hit_count, timestamp)` comparator of
`ZypharModuleCache::evict_oldest`, taken non-strictly so that it is total
and transitive; `std::sort` with the strict form produces a list that is
`Pairwise` for this form. -/
def evictLe (a b : String × ZypharCacheEntry) : Bool :=
  a.2.hit_count < b.2.hit_count ∨
    (a.2.hit_count = b.2.hit_count ∧ a.2.timestamp ≤ b.2.timestamp)

/-- Model of `ZypharModuleCache::evict_oldest count`: sorts the entries by
`(hit_count ascending, timestamp ascending)` and removes the first `count`
of them from the entry map and the in-memory artifact map (the C++ loop
erases them key by key; since a `std::map` has distinct keys this equals
keeping the remainder of the sorted permutation).  The artifact files are
also unlinked; the filesystem is not part of this state. -/
def evict_oldest (s : CacheState) (count : Nat) : CacheState :=
  if count = 0 ∨ s.entries = [] then s
  else
    let sorted := s.entries.mergeSort evictLe
    let victims := (sorted.take count).map Prod.fst
    { s with
      entries := sorted.drop count,
      module_json_cache := s.module_json_cache.filter fun q => !(victims.contains q.1),
      dirty := true }

/-- Model of `ZypharModuleCache::evict_by_age`: disabled when `max_age_seconds ≤ 0`;
otherwise drops every entry with `timestamp < now - max_age_seconds`. -/
def evict_by_age (s : CacheState) (now : Int) : CacheState :=
  if s.max_age_seconds ≤ 0 then s
  else
    let cutoff := now - s.max_age_seconds
    let victims := (s.entries.filter fun p => p.2.timestamp < cutoff).map Prod.fst
    if victims.isEmpty then s
    else
      { s with
        entries := s.entries.filter fun p => !(p.2.timestamp < cutoff : Bool),
        module_json_cache := s.module_json_cache.filter fun q => !(victims.contains q.1),
        dirty := true }

/-- The size-eviction loop at the end of `ZypharModuleCache::evict_if_needed`:
`while (current_size > max_size_bytes && !entries.empty()) evict_oldest(1)`.
Terminates because each iteration removes one entry. -/
def evictBySize (s : CacheState) : CacheState :=
  if h : s.max_size_bytes < total_size_bytes s ∧ s.entries ≠ [] then
    evictBySize (evict_oldest s 1)
  else s
termination_by s.entries.length
decreasing_by
  unfold evict_oldest
  rw [if_neg (by simp [h.2])]
  simp only [List.length_drop, List.length_mergeSort]
  cases hs : s.entries with
  | nil => exact absurd hs h.2
  | cons a l => simp

/-- Model of `ZypharModuleCache::evict_if_needed`: age eviction, then count
eviction down to `max_entries`, then size eviction down to
`max_size_bytes`. -/
def evict_if_needed (s : CacheState) (now : Int) : CacheState :=
  let s1 := evict_by_age s now
  let s2 :=
    if s1.max_entries < s1.entries.length then
      evict_oldest s1 (s1.entries.length - s1.max_entries)
    else s1
  evictBySize s2

/-- The fresh entry built by `put`: timestamp is the insertion time and
the hit counter starts at zero. -/
def mkPutEntry (module_name : String) (hash : Nat) (pass_seq : String)
    (data : String) (now : Int) : ZypharCacheEntry :=
  { module_name := module_name, content_hash := hash, pass_sequence := pass_seq,
    json_data := data, timestamp := now, hit_count := 0 }

/-- Model of `ZypharModuleCache::put`.  The RTLIL serializer is external: `ser = none`
models `serialize_module` throwing (this also covers the null-module
guard, which likewise returns `false` without touching any state), and
`ser = some data` models it returning `data`.  `now` models the
`time(nullptr)` stamp.  On success the entry is stored in the entry map and
the in-memory artifact map, the dirty flag is set and eviction runs. -/
def putOp (s : CacheState) (module_name : String) (hash : Nat) (pass_seq : String)
    (ser : Option String) (now : Int) : Bool × CacheState :=
  let key := make_key module_name hash pass_seq
  match ser with
  | none => (false, s)
  | some data =>
    if data = "" then (false, s)
    else
      let entry := mkPutEntry module_name hash pass_seq data now
      let s1 :=
        { s with
          entries := insertEntry s.entries key entry,
          module_json_cache := insertEntry s.module_json_cache key data,
          dirty := true }
      (true, evict_if_needed s1 now)

/-- Model of `ZypharModuleCache::restore`.  `fs` is the filesystem read oracle and
`deser_ok` the outcome of the external RTLIL frontend call
(`deserialize_module`).  Checks the in-memory artifact map first, falls
back to the entry's stored bytes and then to the artifact file, caches
what it found, and fails on empty data. -/
def restoreOp (s : CacheState) (module_name : String) (hash : Nat) (pass_seq : String)
    (fs : String → Option String) (deser_ok : Bool) : Bool × CacheState :=
  let key := make_key module_name hash pass_seq
  match lookupKey s.entries key with
  | none => (false, s)
  | some e =>
    match lookupKey s.module_json_cache key with
    | some data =>
        if data = "" then (false, s) else (deser_ok, s)
    | none =>
        let data0 := e.json_data
        let data :=
          if data0 = "" then
            match fs (get_module_path s.cache_dir key) with
            | some d => d
            | none => ""
          else data0
        let s1 := { s with module_json_cache := insertEntry s.module_json_cache key data }
        if data = "" then (false, s1) else (deser_ok, s1)

/-- Model of `ZypharModuleCache::invalidate(module_name)`: removes every entry whose
`module_name` matches, and the corresponding in-memory artifacts; sets the
dirty flag when anything was removed. -/
def invalidateModule (s : CacheState) (module_name : String) : CacheState :=
  let to_remove := (s.entries.filter fun p => p.2.module_name = module_name).map Prod.fst
  if to_remove.isEmpty then s
  else
    { s with
      entries := s.entries.filter fun p => !(p.2.module_name = module_name : Bool),
      module_json_cache := s.module_json_cache.filter fun q => !(to_remove.contains q.1),
      dirty := true }

/-- Model of `ZypharModuleCache::invalidate(module_name, hash, pass_seq)`: removes
one key. -/
def invalidateKey (s : CacheState) (module_name : String) (hash : Nat)
    (pass_seq : String) : CacheState :=
  let key := make_key module_name hash pass_seq
  if (lookupKey s.entries key).isSome then
    { s with
      entries := s.entries.filter fun p => !(p.1 = key : Bool),
      module_json_cache := s.module_json_cache.filter fun q => !(q.1 = key : Bool),
      dirty := true }
  else s

/-! Section: Dependents maps and the invalidation closure -/

/-- A `std::map<std::string, std::set<std::string>>` dependents map, the
shape taken by `invalidate_affected` and produced by
`ZypharDependencyGraph::get_all_dependents()`.  The value lists model
`std::set`s and carry no duplicates in any state produced by the code. -/
abbrev DepMap := List (String × List String)

/-- Model of `dependents.find(mod)`, returning the empty set when absent. -/
def depLookup : DepMap → String → List String
  | [], _ => []
  | (k, v) :: rest, m => if k = m then v else depLookup rest m

/-- All names occurring in the value sets of a dependents map (used only to
bound the worklist closure below). -/
def depValues (D : DepMap) : Finset String :=
  D.foldr (fun p acc => p.2.toFinset ∪ acc) ∅

/-- The worklist loop of `ZypharModuleCache::invalidate_affected`: `acc`
models the growing `to_invalidate` set, `work` the worklist.  Popping a
module pushes exactly those of its dependents that are newly inserted into
`to_invalidate` (the C++ pops from the back of a vector; the visited-set
check makes the pop order irrelevant to the final set).  Termination of the
C++ loop on cyclic maps is mirrored here by the decreasing measure: each
pushed name is a fresh element of `depValues D`. -/
def closureAux (D : DepMap) : List String → List String → List String
  | acc, [] => acc
  | acc, m :: work =>
      let fresh := ((depLookup D m).dedup).filter fun d => decide (d ∉ acc)
      closureAux D (acc ++ fresh) (fresh ++ work)
termination_by acc work => 2 * ((depValues D) \ acc.toFinset).card + work.length
decreasing_by
  have hnd : fresh.Nodup := (List.nodup_dedup _).filter _
  have hfa : ∀ x ∈ fresh, x ∉ acc := by
    intro x hx
    have := (List.mem_filter.mp hx).2
    exact of_decide_eq_true this
  have hfv0 : ∀ (E : DepMap) (y : String), y ∈ depLookup E m → y ∈ depValues E := by
    intro E
    induction E with
    | nil => intro y hy; simp [depLookup] at hy
    | cons p rest ih =>
        intro y hy
        obtain ⟨k, v⟩ := p
        simp only [depValues, List.foldr_cons, Finset.mem_union]
        by_cases hp : k = m
        · left
          simp only [depLookup, if_pos hp] at hy
          exact List.mem_toFinset.mpr hy
        · right
          simp only [depLookup, if_neg hp] at hy
          exact ih y hy
  have hfv : ∀ x ∈ fresh, x ∈ depValues D := fun x hx =>
    hfv0 D x (List.mem_dedup.mp (List.mem_filter.mp hx).1)
  have hsub : fresh.toFinset ⊆ depValues D \ acc.toFinset := by
    intro x hx
    rw [List.mem_toFinset] at hx
    exact Finset.mem_sdiff.mpr ⟨hfv x hx, fun hc => hfa x hx (List.mem_toFinset.mp hc)⟩
  have hcard : ((depValues D) \ (acc ++ fresh).toFinset).card =
      ((depValues D) \ acc.toFinset).card - fresh.length := by
    rw [List.toFinset_append, ← Finset.sup_eq_union, ← sdiff_sdiff_left,
      Finset.card_sdiff hsub, List.toFinset_card_of_nodup hnd]
  have hle : fresh.length ≤ ((depValues D) \ acc.toFinset).card := by
    calc fresh.length = fresh.toFinset.card := (List.toFinset_card_of_nodup hnd).symm
    _ ≤ _ := Finset.card_le_card hsub
  have hfl : fresh.length =
      (((depLookup D m).dedup).filter fun d => decide (d ∉ acc)).length := rfl
  simp only [List.length_append, List.length_cons, hcard]
  omega

/-- Model of `ZypharModuleCache::invalidate_affected(changed_modules, dependents)`:
computes the transitive closure of `changed` under the dependents map with
the worklist loop and then calls `invalidate(mod)` for every collected
module. -/
def invalidate_affected (s : CacheState) (changed : List String) (D : DepMap) :
    CacheState :=
  (closureAux D changed changed).foldl invalidateModule s

/-- Reachability through a dependents map: `DepReach D a b` holds when `b`
is `a` itself or a (transitive) dependent of `a`.  `{m | ∃ c ∈ C, DepReach
D c m}` is the spec's `C ∪ transitive_closure(C, D)`. -/
inductive DepReach (D : DepMap) : String → String → Prop
  | refl (m : String) : DepReach D m m
  | step {a b c : String} : DepReach D a b → c ∈ depLookup D b → DepReach D a c

/-! Section: Change monitor -/

/-- The three change sets of `ZypharChangeMonitor` (`std::set<IdString>`
fields; the baseline fingerprint map plays no role in the classification
rules and is omitted). -/
structure MonitorState where
  added_modules : Finset String
  deleted_modules : Finset String
  modified_modules : Finset String
deriving DecidableEq

/-- The empty change sets, as established by `attach`/`reset`. -/
def monitorReset : MonitorState :=
  { added_modules := ∅, deleted_modules := ∅, modified_modules := ∅ }

/-- Model of `ZypharChangeMonitor::notify_module_add`: a module deleted earlier in
the session comes back as modified, otherwise it is recorded as added. -/
def notify_module_add (st : MonitorState) (m : String) : MonitorState :=
  if m ∈ st.deleted_modules then
    { st with
      deleted_modules := st.deleted_modules.erase m,
      modified_modules := insert m st.modified_modules }
  else { st with added_modules := insert m st.added_modules }

/-- Model of `ZypharChangeMonitor::notify_module_del`: deleting a module added in
this session just forgets it (transient); otherwise the module is recorded
as deleted and dropped from the modified set. -/
def notify_module_del (st : MonitorState) (m : String) : MonitorState :=
  if m ∈ st.added_modules then
    { st with added_modules := st.added_modules.erase m }
  else
    { st with
      deleted_modules := insert m st.deleted_modules,
      modified_modules := st.modified_modules.erase m }

/-- Model of `ZypharChangeMonitor::mark_modified` (reached from the
`notify_connect` overloads and `notify_blackout`): modules still in
`added` stay there, everything else is recorded as modified. -/
def mark_modified (st : MonitorState) (m : String) : MonitorState :=
  if m ∈ st.added_modules then st
  else { st with modified_modules := insert m st.modified_modules }

/-- One monitor notification (connection changes and blackout both reach
`mark_modified` in the source). -/
inductive MonitorEvent
  | add (m : String)
  | del (m : String)
  | connect (m : String)
  | blackout (m : String)
  | reset
deriving DecidableEq

/-- Dispatch of one notification to the handler from the source. -/
def monitorStep (st : MonitorState) : MonitorEvent → MonitorState
  | .add m => notify_module_add st m
  | .del m => notify_module_del st m
  | .connect m => mark_modified st m
  | .blackout m => mark_modified st m
  | .reset => monitorReset

/-- Run a sequence of notifications. -/
def monitorRun (st : MonitorState) (events : List MonitorEvent) : MonitorState :=
  events.foldl monitorStep st

/-- The design's module set as the monitor's environment sees it: adding
and deleting modules updates it, other events leave it alone. -/
def applyPresent (P : Finset String) : MonitorEvent → Finset String
  | .add m => insert m P
  | .del m => P.erase m
  | _ => P

/-- A notification is design-consistent when the design can actually fire
it: `notify_module_add` fires for a module not currently in the design,
and deletions, connection changes and blackouts concern present modules. -/
def wfEvent (P : Finset String) : MonitorEvent → Prop
  | .add m => m ∉ P
  | .del m => m ∈ P
  | .connect m => m ∈ P
  | .blackout m => m ∈ P
  | .reset => True

/-- A design-consistent notification sequence starting from module set `P`. -/
inductive WfTrace : Finset String → List MonitorEvent → Prop
  | nil (P : Finset String) : WfTrace P []
  | cons {P : Finset String} {e : MonitorEvent} {es : List MonitorEvent} :
      wfEvent P e → WfTrace (applyPresent P e) es → WfTrace P (e :: es)

/-! Section: Index persistence -/

/-- One entry of the persisted index document, as written by
`save_to_disk` and read back by `load_from_disk`.  `hash` holds the value
of the JSON number: json11 stores numbers as IEEE doubles, so `hash` is
the result of `static_cast<double>(content_hash)` (`roundSig53` below);
`hits` holds the `static_cast<int>` of the hit counter; `timestamp` the
double-rounded time stamp. -/
structure IndexItem where
  key : String
  module_name : String
  hash : Nat
  pass_seq : String
  timestamp : Int
  hits : Int
deriving Repr, DecidableEq

/-- The versioned index document `{version, entries}`. -/
structure IndexDoc where
  version : Int
  entries : List IndexItem
deriving Repr, DecidableEq

/-- Fuel-bounded binary length, used for the floor of the base-2
logarithm below (64 bits of fuel cover every `uint64_t` value this file
models). -/
def bitLenAux : Nat → Nat → Nat
  | 0, _ => 0
  | fuel + 1, n => if n = 0 then 0 else bitLenAux fuel (n / 2) + 1

/-- Floor of the base-2 logarithm on the `uint64_t` range. -/
def log2W64 (n : Nat) : Nat := bitLenAux 64 n - 1

/-- Conversion of a `uint64_t` to an IEEE double, as an integer rounding:
values below `2 ^ 53` are exact; larger values are rounded to 53
significant bits, round-half-to-even.  (The json11 `dump`/`parse` round
trip of a double is exact, so this single rounding models the whole
journey of the `hash` field through the index file.) -/
def roundSig53 (n : Nat) : Nat :=
  if n < 2 ^ 53 then n
  else
    let e := log2W64 n - 52
    let q := n / 2 ^ e
    let r := n % 2 ^ e
    let q' := if 2 * r > 2 ^ e ∨ (2 * r = 2 ^ e ∧ q % 2 = 1) then q + 1 else q
    q' * 2 ^ e

/-- Model of `static_cast<double>` on a `time_t`, via `roundSig53` on the magnitude. -/
def roundSig53Int : Int → Int
  | .ofNat n => .ofNat (roundSig53 n)
  | .negSucc m => - Int.ofNat (roundSig53 (m + 1))

/-- Model of `static_cast<int>(hit_count)`: a `size_t` truncated to a signed 32-bit
value (two's-complement wraparound, the behaviour of the compilers this
code targets). -/
def toInt32Wrap (n : Nat) : Int :=
  let r : Nat := n % 2 ^ 32
  if r < 2 ^ 31 then (r : Int) else (r : Int) - 2 ^ 32

/-- Model of `static_cast<size_t>` of the recovered `int` hits value. -/
def int32ToSizeT (i : Int) : Nat := (i % 2 ^ 64).toNat

/-- Model of `ZypharModuleCache::save_to_disk`: writes each entry's artifact file
(skipping the index record when the write fails, per the `continue`),
then assembles the version-1 index document.  `writeOk` is the filesystem
oracle for artifact writes.  The resulting cache state has `dirty`
cleared; the document is the value dumped to the index file. -/
def saveIndexDoc (s : CacheState) (writeOk : String → Bool) : IndexDoc :=
  { version := 1,
    entries := s.entries.filterMap fun p =>
      if writeOk (get_module_path s.cache_dir p.1) then
        some
          { key := p.1,
            module_name := p.2.module_name,
            hash := roundSig53 p.2.content_hash,
            pass_seq := p.2.pass_sequence,
            timestamp := roundSig53Int p.2.timestamp,
            hits := toInt32Wrap p.2.hit_count }
      else none }

/-- The artifact contents written by `save_to_disk` for a surviving entry:
a map from artifact path to bytes (successful writes only). -/
def savedArtifacts (s : CacheState) (writeOk : String → Bool) : String → Option String :=
  fun path =>
    (s.entries.find? fun p =>
      writeOk (get_module_path s.cache_dir p.1) &&
        (get_module_path s.cache_dir p.1 == path)).map fun p => p.2.json_data

/-- The in-memory entry rebuilt by `load_from_disk` for one index item:
the item's artifact file is read through `fs`, and an unreadable artifact
leaves `json_data` empty (no entry is dropped for that). -/
def loadItemEntry (cache_dir : String) (fs : String → Option String)
    (item : IndexItem) : ZypharCacheEntry :=
  { module_name := item.module_name,
    content_hash := item.hash,
    pass_sequence := item.pass_seq,
    json_data :=
      match fs (get_module_path cache_dir item.key) with
      | some data => data
      | none => "",
    timestamp := item.timestamp,
    hit_count := int32ToSizeT item.hits }

/-- The entry-rebuilding loop of `load_from_disk` (the map was cleared
just before it runs, so it starts from the empty accumulator). -/
def loadFold (cache_dir : String) (fs : String → Option String)
    (items : List IndexItem) (acc : List (String × ZypharCacheEntry)) :
    List (String × ZypharCacheEntry) :=
  items.foldl (fun acc item =>
    if item.key = "" then acc
    else if item.module_name = "" then acc
    else insertEntry acc item.key (loadItemEntry cache_dir fs item)) acc

/-- Model of `ZypharModuleCache::load_from_disk`.  `doc = none` models a
missing or unparseable index file or a non-object document (the function
returns with the entry map untouched); a version other than 1 is likewise
abandoned.  Otherwise the entry map is rebuilt from scratch by `loadFold`:
items with an empty key or an empty module name are skipped.  (The
in-memory artifact map is not touched by the C++ function.) -/
def loadFromDisk (s : CacheState) (doc : Option IndexDoc) (fs : String → Option String) :
    CacheState :=
  match doc with
  | none => s
  | some d =>
    if d.version ≠ 1 then s
    else { s with entries := loadFold s.cache_dir fs d.entries [] }

/-! Section: Incremental driver: conservative widening -/

/-- The in-memory state of `ZypharDependencyGraph` that the driver
consults (`dependents_` as a string-keyed map; the C++
`get_all_dependents()` overload taking no argument returns exactly this
map, converting `IdString`s to `std::string`s — it does NOT take the
transitive closure, unlike the `get_all_dependents(module_name)`
overload). -/
structure DepGraph where
  dependents : DepMap
deriving Repr, DecidableEq

/-- Model of `ZypharDependencyGraph::get_all_dependents()` (the no-argument
overload used by `run_incremental_synth`): the direct-dependents map. -/
def get_all_dependents_map (g : DepGraph) : DepMap := g.dependents

/-- The driver's synthesis/restore split after cache lookup. -/
structure SynthSets where
  to_synthesize : List String
  from_cache : List String
deriving Repr, DecidableEq

/-- Step 4b of `run_incremental_synth` (conservative invalidation): when
the flag is set and both sets are non-empty, collect into `to_invalidate`
every member of `from_cache` that appears in `dependents[m]` for some `m`
currently in `to_synthesize` (one pass over `to_synthesize`; the
`dependents` map is `get_all_dependents_map`), then move each collected
module from `from_cache` to `to_synthesize` and invalidate its cache
entry for the pre-synthesis fingerprint.  Returns the updated sets and
cache state. -/
def conservativeWiden (conservative : Bool) (sets : SynthSets) (g : DepGraph)
    (module_hashes : List (String × Nat)) (cache : CacheState) :
    SynthSets × CacheState :=
  if conservative ∧ sets.to_synthesize ≠ [] ∧ sets.from_cache ≠ [] then
    let dependents := get_all_dependents_map g
    let to_invalidate := sets.to_synthesize.foldl
      (fun acc m =>
        (depLookup dependents m).foldl
          (fun acc d => if d ∈ sets.from_cache ∧ d ∉ acc then acc ++ [d] else acc)
          acc)
      []
    let sets1 : SynthSets :=
      { to_synthesize := sets.to_synthesize ++ to_invalidate,
        from_cache := sets.from_cache.filter fun m => !(to_invalidate.contains m) }
    let cache1 := to_invalidate.foldl
      (fun c m =>
        match lookupKey module_hashes m with
        | some h => invalidateKey c m h "post_hierarchy"
        | none => c)
      cache
    (sets1, cache1)
  else (sets, cache)

/-! Section: Auxiliary predicates and concrete fixtures -/

/-- The design-consistency invariant that relates the monitor's change
sets to the design's current module set `P`: tracked additions and
modifications concern present modules, tracked deletions concern absent
ones, and nothing is both added and modified.  It holds right after
`attach` (all three sets empty) and is preserved by every
design-consistent notification. -/
def monitorInv (P : Finset String) (st : MonitorState) : Prop :=
  st.added_modules ⊆ P ∧ st.modified_modules ⊆ P ∧
    st.deleted_modules ∩ P = ∅ ∧ st.added_modules ∩ st.modified_modules = ∅

instance (P : Finset String) (st : MonitorState) : Decidable (monitorInv P st) := by
  unfold monitorInv; infer_instance

/-- A freshly constructed cache with the limits from `zyphar_cache.h`
(1000 entries, 500 MiB, 30 days). -/
def emptyCache : CacheState :=
  { entries := [], module_json_cache := [], cache_dir := "/tmp/zyphar_cache",
    dirty := false, max_entries := 1000, max_size_bytes := 500 * 1024 * 1024,
    max_age_seconds := 30 * 86400, total_hits := 0, total_misses := 0 }

/-- The dependents map of scenario S4 (five modules; `m3` and `m4`
instantiate `m1` and `m2`, `m5` instantiates `m3` and `m4`), as
`build_from_design` produces it. -/
def depGraphS4 : DepGraph :=
  { dependents :=
      [("m1", ["m3", "m4"]), ("m2", ["m3", "m4"]),
       ("m3", ["m5"]), ("m4", ["m5"]), ("m5", [])] }

/-- Post-elaboration fingerprints for scenario S4 (concrete stand-ins). -/
def hashesS4 : List (String × Nat) :=
  [("m1", 11), ("m2", 12), ("m3", 13), ("m4", 14), ("m5", 15)]

/-- The lookup split of scenario S4 after `m1` alone changed: `m1`
misses, everything else hits. -/
def setsS4 : SynthSets :=
  { to_synthesize := ["m1"], from_cache := ["m2", "m3", "m4", "m5"] }

/-- A concrete cache over the entry limit (three entries, limit two),
used to exercise count eviction. -/
def cacheW4 : CacheState :=
  { emptyCache with
    max_entries := 2,
    entries :=
      [("a|1|t", { module_name := "a", content_hash := 1, pass_sequence := "t",
                   json_data := "aa", timestamp := 30, hit_count := 2 }),
       ("b|2|t", { module_name := "b", content_hash := 2, pass_sequence := "t",
                   json_data := "bb", timestamp := 10, hit_count := 0 }),
       ("c|3|t", { module_name := "c", content_hash := 3, pass_sequence := "t",
                   json_data := "cc", timestamp := 20, hit_count := 0 })] }

/-- A two-module dependents map with an edge from `a` to `b`. -/
def depMapW : DepMap := [("a", ["b"]), ("b", [])]

/-- A cache holding one entry for module `b`, used to exercise
transitive invalidation through `depMapW`. -/
def cacheW2 : CacheState :=
  { emptyCache with
    entries :=
      [("b|5|t", { module_name := "b", content_hash := 5, pass_sequence := "t",
                   json_data := "bb", timestamp := 0, hit_count := 0 })] }

/-- A cache (age eviction disabled) holding an accumulated entry under
the key `make_key "m" 3 "post_hierarchy"`, used to exercise re-`put` of
the same key. -/
def cacheW9 : CacheState :=
  { emptyCache with
    max_age_seconds := 0,
    entries :=
      [(make_key "m" 3 "post_hierarchy",
        { module_name := "m", content_hash := 3, pass_sequence := "post_hierarchy",
          json_data := "old", timestamp := 100, hit_count := 42 })] }

/-- A version-1 index document with one well-formed item, used to
exercise loading when the artifact file is unreadable. -/
def docW6 : IndexDoc :=
  { version := 1,
    entries := [{ key := "m|1|t", module_name := "m", hash := 1,
                  pass_seq := "t", timestamp := 0, hits := 0 }] }

/-- A cache holding one entry whose fingerprint is representable in an
IEEE double, used to exercise the index round trip. -/
def cacheW8 : CacheState :=
  { emptyCache with
    entries :=
      [("m|2a|post_hierarchy",
        { module_name := "m", content_hash := 42, pass_sequence := "post_hierarchy",
          json_data := "mm", timestamp := 7, hit_count := 1 })] }

/-- A cache holding one entry whose fingerprint `2 ^ 53 + 1` is not
representable in an IEEE double. -/
def cacheC8 : CacheState :=
  { emptyCache with
    entries :=
      [("big",
        { module_name := "m", content_hash := 2 ^ 53 + 1, pass_sequence := "t",
          json_data := "mm", timestamp := 0, hit_count := 0 })] }

/-- A one-module design (module set) for the monitor scenarios. -/
def presentW : Finset String := {"m0"}

/-- A design-consistent notification sequence on `presentW`: modify
`m0`, delete it, re-add it. -/
def eventsW : List MonitorEvent :=
  [MonitorEvent.connect "m0", MonitorEvent.del "m0", MonitorEvent.add "m0"]

/-! Section: Association-list lemmas -/

theorem lookupKey_insertEntry_self {β : Type} (l : List (String × β)) (k : String) (v : β) :
    lookupKey (insertEntry l k v) k = some v := by
  induction l with
  | nil => simp [insertEntry, lookupKey]
  | cons p rest ih =>
      obtain ⟨k0, v0⟩ := p
      by_cases hk : k0 = k
      · simp [insertEntry, hk, lookupKey]
      · simp [insertEntry, hk, lookupKey, ih]

theorem mem_insertEntry {β : Type} {l : List (String × β)} {k : String} {v : β}
    {p : String × β} (hp : p ∈ insertEntry l k v) : p = (k, v) ∨ p ∈ l := by
  induction l with
  | nil => simpa [insertEntry] using hp
  | cons q rest ih =>
      obtain ⟨k0, v0⟩ := q
      by_cases hk : k0 = k
      · simp only [insertEntry, if_pos hk, List.mem_cons] at hp
        rcases hp with hp | hp
        · exact Or.inl hp
        · exact Or.inr (List.mem_cons_of_mem _ hp)
      · simp only [insertEntry, if_neg hk, List.mem_cons] at hp
        rcases hp with hp | hp
        · exact Or.inr (by simp [hp])
        · rcases ih hp with hp | hp
          · exact Or.inl hp
          · exact Or.inr (List.mem_cons_of_mem _ hp)

theorem insertEntry_length_of_lookup {β : Type} {l : List (String × β)} {k : String}
    {w : β} (hw : lookupKey l k = some w) (v : β) :
    (insertEntry l k v).length = l.length := by
  induction l with
  | nil => simp [lookupKey] at hw
  | cons q rest ih =>
      obtain ⟨k0, v0⟩ := q
      by_cases hk : k0 = k
      · simp [insertEntry, hk]
      · simp only [lookupKey, if_neg hk] at hw
        simp [insertEntry, hk, ih hw]

theorem lookupKey_eq_none {β : Type} {l : List (String × β)} {k : String}
    (h : lookupKey l k = none) : ∀ p ∈ l, p.1 ≠ k := by
  induction l with
  | nil => simp
  | cons q rest ih =>
      obtain ⟨k0, v0⟩ := q
      by_cases hk : k0 = k
      · simp [lookupKey, hk] at h
      · simp only [lookupKey, if_neg hk] at h
        intro p hp
        rcases List.mem_cons.mp hp with rfl | hp
        · exact hk
        · exact ih h p hp

theorem lookupKey_of_mem_nodup {β : Type} {l : List (String × β)} {p : String × β}
    (hp : p ∈ l) (hnd : (l.map Prod.fst).Nodup) : lookupKey l p.1 = some p.2 := by
  induction l with
  | nil => simp at hp
  | cons q rest ih =>
      obtain ⟨k0, v0⟩ := q
      simp only [List.map_cons, List.nodup_cons] at hnd
      rcases List.mem_cons.mp hp with rfl | hp
      · simp [lookupKey]
      · have hne : k0 ≠ p.1 := by
          intro he
          exact hnd.1 (he ▸ List.mem_map_of_mem Prod.fst hp)
        simp [lookupKey, hne, ih hp hnd.2]

theorem insertEntry_nodup_keys {β : Type} {l : List (String × β)} (k : String) (v : β)
    (hnd : (l.map Prod.fst).Nodup) : ((insertEntry l k v).map Prod.fst).Nodup := by
  induction l with
  | nil => simp [insertEntry]
  | cons q rest ih =>
      obtain ⟨k0, v0⟩ := q
      simp only [List.map_cons, List.nodup_cons] at hnd
      by_cases hk : k0 = k
      · subst hk
        simpa [insertEntry] using hnd
      · simp only [insertEntry, if_neg hk, List.map_cons, List.nodup_cons]
        refine ⟨?_, ih hnd.2⟩
        intro hmem
        rcases List.mem_map.mp hmem with ⟨p, hp, hp1⟩
        rcases mem_insertEntry hp with rfl | hp
        · exact hk hp1.symm
        · exact hnd.1 (hp1 ▸ List.mem_map_of_mem Prod.fst hp)

theorem bumpHit_lookup_none {l : List (String × ZypharCacheEntry)} {k : String}
    (h : lookupKey l k = none) : bumpHit l k = l := by
  have hne := lookupKey_eq_none h
  unfold bumpHit
  conv_rhs => rw [← List.map_id l]
  apply List.map_congr_left
  intro p hp
  rw [if_neg (hne p hp), id]

/-! Section: Claim C5 (put-failure atomicity) -/

/-- C5: when the serializer throws (`ser = none`, which also covers the
null-module guard) or produces an empty byte string, `put` returns
`false` and the entire cache state is unchanged: no entry is added to
the index or the in-memory artifact map, the dirty flag is untouched,
and no eviction runs. -/
theorem c5_put_failure_atomic (s : CacheState) (n : String) (h : Nat) (t : String)
    (ser : Option String) (now : Int) (hser : ser = none ∨ ser = some "") :
    putOp s n h t ser now = (false, s) := by
  rcases hser with rfl | rfl
  · rfl
  · simp [putOp]

theorem c5_put_failure_atomic_witness :
    ((some "" : Option String) = none ∨ (some "" : Option String) = some "") ∧
      putOp emptyCache "add4" 7 "post_hierarchy" (some "") 5 = (false, emptyCache) :=
  ⟨Or.inr rfl,
   c5_put_failure_atomic emptyCache "add4" 7 "post_hierarchy" (some "") 5 (Or.inr rfl)⟩

/-! Section: Claim C10 (has is read-only on entries) -/

theorem evict_oldest_entries_congr {s1 s2 : CacheState} (c : Nat)
    (h : s1.entries = s2.entries) :
    (evict_oldest s1 c).entries = (evict_oldest s2 c).entries := by
  unfold evict_oldest
  rw [h]
  split
  · rw [h]
  · rfl

/-- C10: `has` leaves the entry map (hence every per-entry `hit_count`),
the in-memory artifact map and the dirty flag unchanged — it only touches
the aggregate counters — so a later eviction removes the same entries
whether or not `has` ran; and the entry map after `get` is exactly the
original with the looked-up entry's `hit_count` bumped (`bumpHit`), i.e.
only `get` increments a per-entry hit counter. -/
theorem c10_has_frame (s : CacheState) (n : String) (h : Nat) (t : String) (c : Nat) :
    (hasOp s n h t).2.entries = s.entries ∧
    (hasOp s n h t).2.module_json_cache = s.module_json_cache ∧
    (hasOp s n h t).2.dirty = s.dirty ∧
    (evict_oldest (hasOp s n h t).2 c).entries = (evict_oldest s c).entries ∧
    (getOp s n h t).2.entries = bumpHit s.entries (make_key n h t) := by
  have hframe : (hasOp s n h t).2.entries = s.entries := by
    by_cases hf : (lookupKey s.entries (make_key n h t)).isSome <;> simp [hasOp, hf]
  refine ⟨hframe, ?_, ?_, evict_oldest_entries_congr c hframe, ?_⟩
  · by_cases hf : (lookupKey s.entries (make_key n h t)).isSome <;> simp [hasOp, hf]
  · by_cases hf : (lookupKey s.entries (make_key n h t)).isSome <;> simp [hasOp, hf]
  · rcases hk : lookupKey s.entries (make_key n h t) with _ | e
    · simp [getOp, hk, bumpHit_lookup_none hk]
    · simp [getOp, hk]

/-! Section: Eviction lemmas -/

@[simp] theorem evict_oldest_max_entries (s : CacheState) (c : Nat) :
    (evict_oldest s c).max_entries = s.max_entries := by
  unfold evict_oldest; split <;> rfl

@[simp] theorem evict_oldest_max_size (s : CacheState) (c : Nat) :
    (evict_oldest s c).max_size_bytes = s.max_size_bytes := by
  unfold evict_oldest; split <;> rfl

@[simp] theorem evict_oldest_max_age (s : CacheState) (c : Nat) :
    (evict_oldest s c).max_age_seconds = s.max_age_seconds := by
  unfold evict_oldest; split <;> rfl

@[simp] theorem evict_by_age_max_entries (s : CacheState) (now : Int) :
    (evict_by_age s now).max_entries = s.max_entries := by
  simp only [evict_by_age]
  split_ifs <;> rfl

@[simp] theorem evict_by_age_max_size (s : CacheState) (now : Int) :
    (evict_by_age s now).max_size_bytes = s.max_size_bytes := by
  simp only [evict_by_age]
  split_ifs <;> rfl

theorem evict_oldest_entries_length (s : CacheState) (c : Nat) :
    (evict_oldest s c).entries.length = s.entries.length - c := by
  unfold evict_oldest
  split
  · next hc =>
      rcases hc with rfl | hc
      · rfl
      · simp [hc]
  · simp

theorem total_size_of_nil {s : CacheState} (h : s.entries = []) :
    total_size_bytes s = 0 := by
  simp [total_size_bytes, h]

theorem evictBySize_max_entries (s : CacheState) :
    (evictBySize s).max_entries = s.max_entries := by
  induction s using evictBySize.induct with
  | case1 s h ih =>
      rw [evictBySize, dif_pos h, ih, evict_oldest_max_entries]
  | case2 s h => rw [evictBySize, dif_neg h]

theorem evictBySize_max_size (s : CacheState) :
    (evictBySize s).max_size_bytes = s.max_size_bytes := by
  induction s using evictBySize.induct with
  | case1 s h ih =>
      rw [evictBySize, dif_pos h, ih, evict_oldest_max_size]
  | case2 s h => rw [evictBySize, dif_neg h]

theorem evictBySize_size (s : CacheState) :
    total_size_bytes (evictBySize s) ≤ s.max_size_bytes := by
  induction s using evictBySize.induct with
  | case1 s h ih =>
      rw [evictBySize, dif_pos h]
      calc total_size_bytes (evictBySize (evict_oldest s 1)) ≤
            (evict_oldest s 1).max_size_bytes := ih
      _ = s.max_size_bytes := evict_oldest_max_size s 1
  | case2 s h =>
      rw [evictBySize, dif_neg h]
      rcases Decidable.not_and_iff_or_not.mp h with h1 | h2
      · omega
      · rw [total_size_of_nil (Decidable.not_not.mp h2)]
        exact Nat.zero_le _

theorem evictBySize_length_le (s : CacheState) :
    (evictBySize s).entries.length ≤ s.entries.length := by
  induction s using evictBySize.induct with
  | case1 s h ih =>
      rw [evictBySize, dif_pos h]
      calc (evictBySize (evict_oldest s 1)).entries.length ≤
            (evict_oldest s 1).entries.length := ih
      _ ≤ s.entries.length := by rw [evict_oldest_entries_length]; omega
  | case2 s h => rw [evictBySize, dif_neg h]

theorem evict_if_needed_count (s : CacheState) (now : Int) :
    (evict_if_needed s now).entries.length ≤ s.max_entries := by
  simp only [evict_if_needed]
  set s1 := evict_by_age s now with hs1
  have hmax : s1.max_entries = s.max_entries := evict_by_age_max_entries s now
  by_cases hov : s1.max_entries < s1.entries.length
  · rw [if_pos hov]
    calc (evictBySize (evict_oldest s1 (s1.entries.length - s1.max_entries))).entries.length
        ≤ (evict_oldest s1 (s1.entries.length - s1.max_entries)).entries.length :=
          evictBySize_length_le _
      _ ≤ s.max_entries := by rw [evict_oldest_entries_length]; omega
  · rw [if_neg hov]
    calc (evictBySize s1).entries.length ≤ s1.entries.length := evictBySize_length_le _
      _ ≤ s.max_entries := by omega

theorem evict_if_needed_size (s : CacheState) (now : Int) :
    total_size_bytes (evict_if_needed s now) ≤ s.max_size_bytes := by
  simp only [evict_if_needed]
  set s1 := evict_by_age s now with hs1
  have hmax : s1.max_size_bytes = s.max_size_bytes := evict_by_age_max_size s now
  by_cases hov : s1.max_entries < s1.entries.length
  · rw [if_pos hov]
    calc total_size_bytes (evictBySize (evict_oldest s1 (s1.entries.length - s1.max_entries)))
        ≤ (evict_oldest s1 (s1.entries.length - s1.max_entries)).max_size_bytes :=
          evictBySize_size _
      _ = s.max_size_bytes := by rw [evict_oldest_max_size]; omega
  · rw [if_neg hov]
    calc total_size_bytes (evictBySize s1) ≤ s1.max_size_bytes := evictBySize_size _
      _ = s.max_size_bytes := hmax

/-! Section: Claim C3 (eviction bound after put) -/

/-- C3: starting from a cache state within its limits, any call to `put`
— returning `true` or `false` — leaves `entry_count ≤ max_entries` and
`total_size_bytes ≤ max_size_bytes`.  (On the success path the bound
holds even without the precondition, because `evict_if_needed` runs; the
precondition carries the failure paths, which leave the state
untouched.) -/
theorem c3_put_eviction_bound (s : CacheState) (n : String) (h : Nat) (t : String)
    (ser : Option String) (now : Int)
    (hc : s.entries.length ≤ s.max_entries)
    (hs : total_size_bytes s ≤ s.max_size_bytes) :
    (putOp s n h t ser now).2.entries.length ≤ s.max_entries ∧
    total_size_bytes (putOp s n h t ser now).2 ≤ s.max_size_bytes := by
  cases ser with
  | none => exact ⟨hc, hs⟩
  | some data =>
    by_cases hd : data = ""
    · subst hd
      simpa [putOp] using ⟨hc, hs⟩
    · have hput : (putOp s n h t (some data) now).2 =
          evict_if_needed
            { s with
              entries := insertEntry s.entries (make_key n h t)
                (mkPutEntry n h t data now),
              module_json_cache := insertEntry s.module_json_cache (make_key n h t) data,
              dirty := true } now := by
        simp [putOp, hd]
      rw [hput]
      exact ⟨evict_if_needed_count _ now, evict_if_needed_size _ now⟩

theorem c3_put_eviction_bound_witness :
    (emptyCache.entries.length ≤ emptyCache.max_entries ∧
      total_size_bytes emptyCache ≤ emptyCache.max_size_bytes) ∧
    ((putOp emptyCache "m" 9 "post_hierarchy" (some "data") 3).2.entries.length ≤
        emptyCache.max_entries ∧
      total_size_bytes (putOp emptyCache "m" 9 "post_hierarchy" (some "data") 3).2 ≤
        emptyCache.max_size_bytes) :=
  ⟨⟨by decide, by decide⟩,
   c3_put_eviction_bound emptyCache "m" 9 "post_hierarchy" (some "data") 3
     (by decide) (by decide)⟩

/-! Section: Claim C4 (count-eviction order) -/

theorem evictLe_trans (a b c : String × ZypharCacheEntry) :
    evictLe a b = true → evictLe b c = true → evictLe a c = true := by
  simp only [evictLe, decide_eq_true_eq]
  intro hab hbc
  rcases hab with hab | ⟨hab1, hab2⟩ <;> rcases hbc with hbc | ⟨hbc1, hbc2⟩
  · exact Or.inl (hab.trans hbc)
  · exact Or.inl (hbc1 ▸ hab)
  · exact Or.inl (hab1 ▸ hbc)
  · exact Or.inr ⟨hab1.trans hbc1, hab2.trans hbc2⟩

theorem evictLe_total (a b : String × ZypharCacheEntry) :
    (evictLe a b || evictLe b a) = true := by
  simp only [evictLe, Bool.or_eq_true, decide_eq_true_eq]
  rcases Nat.lt_trichotomy a.2.hit_count b.2.hit_count with hl | he | hg
  · exact Or.inl (Or.inl hl)
  · rcases Int.le_total a.2.timestamp b.2.timestamp with ht | ht
    · exact Or.inl (Or.inr ⟨he, ht⟩)
    · exact Or.inr (Or.inr ⟨he.symm, ht⟩)
  · exact Or.inr (Or.inl hg)

/-- C4: when count eviction runs on a cache with
`entry_count > max_entries`, exactly `entry_count - max_entries` entries
are removed (the count drops to exactly `max_entries`), every surviving
entry is one of the original entries unchanged, and every removed entry
is minimal in the `(hit_count ascending, timestamp ascending)` order:
it compares `≤` to every survivor.  (With ties in both components,
`std::sort` leaves which of the tied entries goes unspecified; the
minimality statement holds for any resolution.) -/
theorem c4_count_eviction (s : CacheState) (hover : s.max_entries < s.entries.length) :
    (evict_oldest s (s.entries.length - s.max_entries)).entries.length = s.max_entries ∧
    (∀ p ∈ (evict_oldest s (s.entries.length - s.max_entries)).entries, p ∈ s.entries) ∧
    (∀ p ∈ s.entries, p ∉ (evict_oldest s (s.entries.length - s.max_entries)).entries →
      ∀ k ∈ (evict_oldest s (s.entries.length - s.max_entries)).entries,
        evictLe p k = true) := by
  have hne : s.entries ≠ [] := by
    intro h0
    rw [h0] at hover
    simp at hover
  have hcond : ¬(s.entries.length - s.max_entries = 0 ∨ s.entries = []) := by
    push_neg
    exact ⟨by omega, hne⟩
  have he : (evict_oldest s (s.entries.length - s.max_entries)).entries =
      (s.entries.mergeSort evictLe).drop (s.entries.length - s.max_entries) := by
    unfold evict_oldest
    rw [if_neg hcond]
  refine ⟨?_, ?_, ?_⟩
  · rw [he, List.length_drop, List.length_mergeSort]
    omega
  · intro p hp
    rw [he] at hp
    exact List.mem_mergeSort.mp (List.mem_of_mem_drop hp)
  · intro p hp hnotin k hk
    rw [he] at hnotin hk
    have hps : p ∈ s.entries.mergeSort evictLe := List.mem_mergeSort.mpr hp
    have hsplit := List.take_append_drop (s.entries.length - s.max_entries)
      (s.entries.mergeSort evictLe)
    have hpt : p ∈ (s.entries.mergeSort evictLe).take (s.entries.length - s.max_entries) := by
      rcases List.mem_append.mp (hsplit ▸ hps) with hx | hx
      · exact hx
      · exact absurd hx hnotin
    have hpw := List.sorted_mergeSort evictLe_trans evictLe_total s.entries
    rw [← hsplit] at hpw
    exact (List.pairwise_append.mp hpw).2.2 p hpt k hk

/-! Section: Claim C2 (invalidation closure) -/

theorem closureAux_mono (D : DepMap) (acc work : List String) (x : String) :
    x ∈ acc → x ∈ closureAux D acc work := by
  induction acc, work using closureAux.induct D with
  | case1 acc =>
      intro hx
      rw [closureAux]
      exact hx
  | case2 acc m work fresh ih =>
      intro hx
      rw [closureAux]
      exact ih (List.mem_append_left _ hx)

theorem closureAux_closed (D : DepMap) (acc work : List String) :
    (∀ a ∈ acc, a ∈ work ∨ ∀ d ∈ depLookup D a, d ∈ acc) →
    ∀ a ∈ closureAux D acc work, ∀ d ∈ depLookup D a, d ∈ closureAux D acc work := by
  induction acc, work using closureAux.induct D with
  | case1 acc =>
      intro hinv a ha d hd
      rw [closureAux] at ha ⊢
      rcases hinv a ha with h | h
      · exact absurd h (List.not_mem_nil a)
      · exact h d hd
  | case2 acc m work fresh ih =>
      intro hinv
      rw [closureAux]
      apply ih
      intro a ha
      rcases List.mem_append.mp ha with ha | ha
      · rcases hinv a ha with hw | hcl
        · rcases List.mem_cons.mp hw with rfl | hw
          · right
            intro d hd
            by_cases hdacc : d ∈ acc
            · exact List.mem_append_left _ hdacc
            · refine List.mem_append_right _ ?_
              exact List.mem_filter.mpr ⟨List.mem_dedup.mpr hd, by simp [hdacc]⟩
          · exact Or.inl (List.mem_append_right _ hw)
        · exact Or.inr fun d hd => List.mem_append_left _ (hcl d hd)
      · exact Or.inl (List.mem_append_left _ ha)

theorem depReach_mem_closure (D : DepMap) (changed : List String) {c m : String}
    (hc : c ∈ changed) (h : DepReach D c m) :
    m ∈ closureAux D changed changed := by
  induction h with
  | refl => exact closureAux_mono D changed changed c hc
  | step hab hbc ih =>
      exact closureAux_closed D changed changed (fun a ha => Or.inl ha) _ ih _ hbc

theorem mem_invalidateModule {s : CacheState} {n : String} {p : String × ZypharCacheEntry}
    (hp : p ∈ (invalidateModule s n).entries) : p ∈ s.entries := by
  simp only [invalidateModule] at hp
  split at hp
  · exact hp
  · exact List.mem_of_mem_filter hp

theorem invalidateModule_name {s : CacheState} {n : String} {p : String × ZypharCacheEntry}
    (hp : p ∈ (invalidateModule s n).entries) : p.2.module_name ≠ n := by
  simp only [invalidateModule] at hp
  split at hp
  · next hempty =>
      intro heq
      have hmem : p ∈ s.entries.filter fun q => q.2.module_name = n :=
        List.mem_filter.mpr ⟨hp, by simp [heq]⟩
      rw [List.isEmpty_iff, List.map_eq_nil_iff] at hempty
      rw [hempty] at hmem
      exact absurd hmem (List.not_mem_nil p)
  · have := (List.mem_filter.mp hp).2
    simpa using this

theorem mem_foldl_invalidate {names : List String} {s : CacheState}
    {p : String × ZypharCacheEntry}
    (hp : p ∈ (names.foldl invalidateModule s).entries) : p ∈ s.entries := by
  induction names generalizing s with
  | nil => exact hp
  | cons n rest ih => exact mem_invalidateModule (ih hp)

theorem foldl_invalidate_not_name {names : List String} {s : CacheState} {m : String}
    (hm : m ∈ names) {p : String × ZypharCacheEntry}
    (hp : p ∈ (names.foldl invalidateModule s).entries) :
    p.2.module_name ≠ m := by
  induction names generalizing s with
  | nil => simp at hm
  | cons n rest ih =>
      rcases List.mem_cons.mp hm with rfl | hm
      · exact invalidateModule_name (mem_foldl_invalidate hp)
      · exact ih hm hp

/-- C2: after `invalidate_affected(C, D)` no cache entry survives whose
`module_name` lies in `C ∪ transitive_closure(C, D)` (here: is
`DepReach`-able from some changed module; `DepReach` is reflexive, so the
changed set itself is covered), for every dependents map `D`, cycles
included.  Termination on cyclic maps is witnessed by `closureAux` being
a total function (its well-founded measure mirrors the visited-set
argument of the C++ worklist loop). -/
theorem c2_invalidation_closure (s : CacheState) (changed : List String) (D : DepMap)
    (c m : String) (hc : c ∈ changed) (hreach : DepReach D c m) :
    ∀ p ∈ (invalidate_affected s changed D).entries, p.2.module_name ≠ m := by
  intro p hp
  exact foldl_invalidate_not_name (depReach_mem_closure D changed hc hreach) hp

theorem c2_invalidation_closure_witness :
    ("a" ∈ ["a"] ∧ DepReach depMapW "a" "b") ∧
    (∀ p ∈ (invalidate_affected cacheW2 ["a"] depMapW).entries,
      p.2.module_name ≠ "b") :=
  ⟨⟨by decide, DepReach.step (DepReach.refl "a") (by decide)⟩,
   c2_invalidation_closure cacheW2 ["a"] depMapW "a" "b" (by decide)
     (DepReach.step (DepReach.refl "a") (by decide))⟩

theorem c4_count_eviction_witness :
    (cacheW4.max_entries < cacheW4.entries.length) ∧
    ((evict_oldest cacheW4 (cacheW4.entries.length - cacheW4.max_entries)).entries.length =
        cacheW4.max_entries ∧
      (∀ p ∈ (evict_oldest cacheW4 (cacheW4.entries.length - cacheW4.max_entries)).entries,
        p ∈ cacheW4.entries) ∧
      (∀ p ∈ cacheW4.entries,
        p ∉ (evict_oldest cacheW4 (cacheW4.entries.length - cacheW4.max_entries)).entries →
        ∀ k ∈ (evict_oldest cacheW4 (cacheW4.entries.length - cacheW4.max_entries)).entries,
          evictLe p k = true)) :=
  ⟨by decide, c4_count_eviction cacheW4 (by decide)⟩

/-! Section: Claim C7 (change-set disjointness) -/

/-- C7 counterexample: the claim quantifies over every sequence of
monitor notifications, but for raw call sequences not generated by a
design the disjointness fails: a connection-change notification for
`m1` (marking it modified) followed by an add notification for the same
name leaves `m1` in both `added` and `modified`. -/
theorem c7_disjointness_counterexample :
    "m1" ∈ (monitorRun monitorReset
        [MonitorEvent.connect "m1", MonitorEvent.add "m1"]).added_modules ∧
    "m1" ∈ (monitorRun monitorReset
        [MonitorEvent.connect "m1", MonitorEvent.add "m1"]).modified_modules ∧
    (monitorRun monitorReset
        [MonitorEvent.connect "m1", MonitorEvent.add "m1"]).added_modules ∩
      (monitorRun monitorReset
        [MonitorEvent.connect "m1", MonitorEvent.add "m1"]).modified_modules ≠ ∅ := by
  decide

theorem monitorInv_mark (P : Finset String) (st : MonitorState) (m : String)
    (hm : m ∈ P) (hinv : monitorInv P st) : monitorInv P (mark_modified st m) := by
  obtain ⟨hA, hM, hD, hAM⟩ := hinv
  have hAMx : ∀ x, x ∈ st.added_modules → x ∉ st.modified_modules := fun x hx hxM =>
    (Finset.eq_empty_iff_forall_not_mem.mp hAM x) (Finset.mem_inter.mpr ⟨hx, hxM⟩)
  unfold mark_modified
  by_cases hadd : m ∈ st.added_modules
  · rw [if_pos hadd]
    exact ⟨hA, hM, hD, hAM⟩
  · rw [if_neg hadd]
    refine ⟨hA, Finset.insert_subset_iff.mpr ⟨hm, hM⟩, hD, ?_⟩
    apply Finset.eq_empty_iff_forall_not_mem.mpr
    intro x hx
    obtain ⟨hxA, hxiM⟩ := Finset.mem_inter.mp hx
    rcases Finset.mem_insert.mp hxiM with rfl | hxM
    · exact hadd hxA
    · exact hAMx x hxA hxM

theorem monitorInv_step (P : Finset String) (st : MonitorState) (e : MonitorEvent)
    (hwf : wfEvent P e) (hinv : monitorInv P st) :
    monitorInv (applyPresent P e) (monitorStep st e) := by
  obtain ⟨hA, hM, hD, hAM⟩ := hinv
  have hDP : ∀ x, x ∈ st.deleted_modules → x ∉ P := fun x hx hxP =>
    (Finset.eq_empty_iff_forall_not_mem.mp hD x) (Finset.mem_inter.mpr ⟨hx, hxP⟩)
  have hAMx : ∀ x, x ∈ st.added_modules → x ∉ st.modified_modules := fun x hx hxM =>
    (Finset.eq_empty_iff_forall_not_mem.mp hAM x) (Finset.mem_inter.mpr ⟨hx, hxM⟩)
  cases e with
  | add m =>
      simp only [wfEvent] at hwf
      simp only [applyPresent, monitorStep]
      unfold notify_module_add
      by_cases hdel : m ∈ st.deleted_modules
      · rw [if_pos hdel]
        refine ⟨fun x hx => Finset.mem_insert_of_mem (hA hx),
          Finset.insert_subset_insert _ hM, ?_, ?_⟩
        · apply Finset.eq_empty_iff_forall_not_mem.mpr
          intro x hx
          obtain ⟨hxe, hxiP⟩ := Finset.mem_inter.mp hx
          obtain ⟨hxm, hxD⟩ := Finset.mem_erase.mp hxe
          rcases Finset.mem_insert.mp hxiP with rfl | hxP
          · exact hxm rfl
          · exact hDP x hxD hxP
        · apply Finset.eq_empty_iff_forall_not_mem.mpr
          intro x hx
          obtain ⟨hxA, hxiM⟩ := Finset.mem_inter.mp hx
          rcases Finset.mem_insert.mp hxiM with rfl | hxM
          · exact hwf (hA hxA)
          · exact hAMx x hxA hxM
      · rw [if_neg hdel]
        refine ⟨Finset.insert_subset_insert _ hA,
          fun x hx => Finset.mem_insert_of_mem (hM hx), ?_, ?_⟩
        · apply Finset.eq_empty_iff_forall_not_mem.mpr
          intro x hx
          obtain ⟨hxD, hxiP⟩ := Finset.mem_inter.mp hx
          rcases Finset.mem_insert.mp hxiP with rfl | hxP
          · exact hdel hxD
          · exact hDP x hxD hxP
        · apply Finset.eq_empty_iff_forall_not_mem.mpr
          intro x hx
          obtain ⟨hxiA, hxM⟩ := Finset.mem_inter.mp hx
          rcases Finset.mem_insert.mp hxiA with rfl | hxA
          · exact hwf (hM hxM)
          · exact hAMx x hxA hxM
  | del m =>
      simp only [wfEvent] at hwf
      simp only [applyPresent, monitorStep]
      unfold notify_module_del
      by_cases hadd : m ∈ st.added_modules
      · rw [if_pos hadd]
        refine ⟨Finset.erase_subset_erase _ hA, ?_, ?_, ?_⟩
        · intro x hx
          exact Finset.mem_erase.mpr
            ⟨fun heq => hAMx m hadd (heq ▸ hx), hM hx⟩
        · apply Finset.eq_empty_iff_forall_not_mem.mpr
          intro x hx
          obtain ⟨hxD, hxPe⟩ := Finset.mem_inter.mp hx
          exact hDP x hxD (Finset.mem_of_mem_erase hxPe)
        · apply Finset.eq_empty_iff_forall_not_mem.mpr
          intro x hx
          obtain ⟨hxAe, hxM⟩ := Finset.mem_inter.mp hx
          exact hAMx x (Finset.mem_of_mem_erase hxAe) hxM
      · rw [if_neg hadd]
        refine ⟨?_, Finset.erase_subset_erase _ hM, ?_, ?_⟩
        · intro x hx
          exact Finset.mem_erase.mpr ⟨fun heq => hadd (heq ▸ hx), hA hx⟩
        · apply Finset.eq_empty_iff_forall_not_mem.mpr
          intro x hx
          obtain ⟨hxiD, hxPe⟩ := Finset.mem_inter.mp hx
          obtain ⟨hxm, hxP⟩ := Finset.mem_erase.mp hxPe
          rcases Finset.mem_insert.mp hxiD with rfl | hxD
          · exact hxm rfl
          · exact hDP x hxD hxP
        · apply Finset.eq_empty_iff_forall_not_mem.mpr
          intro x hx
          obtain ⟨hxA, hxMe⟩ := Finset.mem_inter.mp hx
          exact hAMx x hxA (Finset.mem_of_mem_erase hxMe)
  | connect m =>
      simp only [wfEvent] at hwf
      exact monitorInv_mark P st m hwf ⟨hA, hM, hD, hAM⟩
  | blackout m =>
      simp only [wfEvent] at hwf
      exact monitorInv_mark P st m hwf ⟨hA, hM, hD, hAM⟩
  | reset =>
      simp [monitorStep, monitorReset, monitorInv, applyPresent]

theorem monitorInv_run (P : Finset String) (es : List MonitorEvent) (st : MonitorState)
    (hwf : WfTrace P es) (hinv : monitorInv P st) :
    monitorInv (es.foldl applyPresent P) (monitorRun st es) := by
  induction es generalizing P st with
  | nil => exact hinv
  | cons e rest ih =>
      cases hwf with
      | cons hwfe hwft => exact ih _ _ hwft (monitorInv_step P st e hwfe hinv)

/-- C7 (amended): the three change sets are pairwise disjoint at every
observable moment for every design-consistent notification sequence —
one in which add notifications concern modules not currently in the
design and delete/connection-change/blackout notifications concern
present modules, as the observer callbacks guarantee — starting from an
attached monitor (empty change sets, `monitorInv` holds).  Applying the
theorem to each prefix of a trace (prefixes of well-formed traces are
well-formed) gives the property at every moment.  For raw call sequences
violating design-consistency the property fails
(`c7_disjointness_counterexample`). -/
theorem c7_disjointness_wellformed (P : Finset String) (es : List MonitorEvent)
    (st : MonitorState) (hwf : WfTrace P es) (hinv : monitorInv P st) :
    (monitorRun st es).added_modules ∩ (monitorRun st es).deleted_modules = ∅ ∧
    (monitorRun st es).added_modules ∩ (monitorRun st es).modified_modules = ∅ ∧
    (monitorRun st es).deleted_modules ∩ (monitorRun st es).modified_modules = ∅ := by
  obtain ⟨hA, hM, hD, hAM⟩ := monitorInv_run P es st hwf hinv
  refine ⟨?_, hAM, ?_⟩
  · apply Finset.eq_empty_iff_forall_not_mem.mpr
    intro x hx
    obtain ⟨hxA, hxD⟩ := Finset.mem_inter.mp hx
    exact (Finset.eq_empty_iff_forall_not_mem.mp hD x)
      (Finset.mem_inter.mpr ⟨hxD, hA hxA⟩)
  · apply Finset.eq_empty_iff_forall_not_mem.mpr
    intro x hx
    obtain ⟨hxD, hxM⟩ := Finset.mem_inter.mp hx
    exact (Finset.eq_empty_iff_forall_not_mem.mp hD x)
      (Finset.mem_inter.mpr ⟨hxD, hM hxM⟩)

theorem c7_disjointness_wellformed_witness :
    (WfTrace presentW eventsW ∧ monitorInv presentW monitorReset) ∧
    ((monitorRun monitorReset eventsW).added_modules ∩
        (monitorRun monitorReset eventsW).deleted_modules = ∅ ∧
      (monitorRun monitorReset eventsW).added_modules ∩
        (monitorRun monitorReset eventsW).modified_modules = ∅ ∧
      (monitorRun monitorReset eventsW).deleted_modules ∩
        (monitorRun monitorReset eventsW).modified_modules = ∅) :=
  have hwf : WfTrace presentW eventsW :=
    WfTrace.cons (show "m0" ∈ presentW by decide)
      (WfTrace.cons (show "m0" ∈ presentW by decide)
        (WfTrace.cons (show "m0" ∉ presentW.erase "m0" by decide)
          (WfTrace.nil _)))
  ⟨⟨hwf, by decide⟩,
   c7_disjointness_wellformed presentW eventsW monitorReset hwf (by decide)⟩

/-! Section: Claim C6 (index/artifact invariant at load) -/

theorem mem_loadFold {cd : String} {fs : String → Option String}
    {items : List IndexItem} {acc : List (String × ZypharCacheEntry)}
    {p : String × ZypharCacheEntry} (hp : p ∈ loadFold cd fs items acc) :
    p ∈ acc ∨ ∃ item ∈ items, item.key ≠ "" ∧ item.module_name ≠ "" ∧
      p = (item.key, loadItemEntry cd fs item) := by
  induction items generalizing acc with
  | nil => exact Or.inl hp
  | cons item rest ih =>
      have hp' : p ∈ loadFold cd fs rest
          (if item.key = "" then acc
           else if item.module_name = "" then acc
           else insertEntry acc item.key (loadItemEntry cd fs item)) := hp
      rcases ih hp' with hpacc | ⟨it, hit, h1, h2, h3⟩
      · by_cases hk : item.key = ""
        · rw [if_pos hk] at hpacc
          exact Or.inl hpacc
        · rw [if_neg hk] at hpacc
          by_cases hm : item.module_name = ""
          · rw [if_pos hm] at hpacc
            exact Or.inl hpacc
          · rw [if_neg hm] at hpacc
            rcases mem_insertEntry hpacc with rfl | hpacc
            · exact Or.inr ⟨item, List.mem_cons_self item rest, hk, hm, rfl⟩
            · exact Or.inl hpacc
      · exact Or.inr ⟨it, List.mem_cons_of_mem item hit, h1, h2, h3⟩

theorem loadFold_nodup_keys (cd : String) (fs : String → Option String)
    (items : List IndexItem) (acc : List (String × ZypharCacheEntry))
    (hnd : (acc.map Prod.fst).Nodup) :
    ((loadFold cd fs items acc).map Prod.fst).Nodup := by
  induction items generalizing acc with
  | nil => exact hnd
  | cons item rest ih =>
      show ((loadFold cd fs rest _).map Prod.fst).Nodup
      apply ih
      dsimp only
      split_ifs
      · exact hnd
      · exact hnd
      · exact insertEntry_nodup_keys _ _ hnd

theorem loadItemEntry_json_none {cd : String} {fs : String → Option String}
    {item : IndexItem} (h : fs (get_module_path cd item.key) = none) :
    (loadItemEntry cd fs item).json_data = "" := by
  simp [loadItemEntry, h]

/-- C6 counterexample: the claim as stated fails — `load_from_disk` does
NOT drop an index entry whose artifact file cannot be read.  Loading the
one-item index `docW6` with a filesystem on which every read fails still
installs the entry (with empty serialized data). -/
theorem c6_index_artifact_counterexample :
    ("m|1|t",
      ({ module_name := "m", content_hash := 1, pass_sequence := "t",
         json_data := "", timestamp := 0, hit_count := 0 } : ZypharCacheEntry)) ∈
      (loadFromDisk emptyCache (some docW6) fun _ => none).entries ∧
    (fun _ => (none : Option String))
        (get_module_path emptyCache.cache_dir "m|1|t") = none :=
  ⟨by decide, rfl⟩

/-- C6 (amended): an index entry whose artifact file cannot be read is
NOT dropped by `load_from_disk`; it is retained with empty serialized
data, and the unreadability surfaces at restore time instead: `restore`
on such an entry returns `false` (provided the in-memory artifact map
has no stale bytes for the key, as is the case right after start-up when
the load runs), so the driver falls back to synthesis. -/
theorem c6_amended_unreadable_kept (s : CacheState) (d : IndexDoc)
    (fs : String → Option String) (hv : d.version = 1) :
    ∀ p ∈ (loadFromDisk s (some d) fs).entries,
      fs (get_module_path s.cache_dir p.1) = none →
      p.2.json_data = "" ∧
      ∀ (n : String) (h : Nat) (t : String) (deser_ok : Bool),
        make_key n h t = p.1 →
        lookupKey (loadFromDisk s (some d) fs).module_json_cache p.1 = none →
        (restoreOp (loadFromDisk s (some d) fs) n h t fs deser_ok).1 = false := by
  have hs' : loadFromDisk s (some d) fs =
      { s with entries := loadFold s.cache_dir fs d.entries [] } := by
    simp [loadFromDisk, hv]
  rw [hs']
  intro p hp hfs
  rcases mem_loadFold hp with hnil | ⟨item, hitem, hk, hm, heq⟩
  · exact absurd hnil (List.not_mem_nil p)
  · have hkey : p.1 = item.key := by rw [heq]
    have hjson : p.2.json_data = "" := by
      rw [heq]
      exact loadItemEntry_json_none (by rw [← hkey]; exact hfs)
    refine ⟨hjson, ?_⟩
    intro n h t deser_ok hmk hmem
    have hnd : ((loadFold s.cache_dir fs d.entries []).map Prod.fst).Nodup :=
      loadFold_nodup_keys _ _ _ _ (by simp)
    have hlk : lookupKey (loadFold s.cache_dir fs d.entries []) (make_key n h t) =
        some p.2 := by
      rw [hmk]
      exact lookupKey_of_mem_nodup hp hnd
    have hmem' : lookupKey s.module_json_cache (make_key n h t) = none := by
      rw [hmk]
      exact hmem
    have hfs' : fs (get_module_path s.cache_dir (make_key n h t)) = none := by
      rw [hmk]
      exact hfs
    simp only [restoreOp, hlk, hmem', hjson, hfs']
    simp

theorem c6_amended_unreadable_kept_witness :
    docW6.version = 1 ∧
    (∀ p ∈ (loadFromDisk emptyCache (some docW6) fun _ => none).entries,
      (fun _ => (none : Option String)) (get_module_path emptyCache.cache_dir p.1) =
          none →
      p.2.json_data = "" ∧
      ∀ (n : String) (h : Nat) (t : String) (deser_ok : Bool),
        make_key n h t = p.1 →
        lookupKey (loadFromDisk emptyCache (some docW6) fun _ => none).module_json_cache
            p.1 = none →
        (restoreOp (loadFromDisk emptyCache (some docW6) fun _ => none) n h t
            (fun _ => none) deser_ok).1 = false) :=
  ⟨rfl, c6_amended_unreadable_kept emptyCache docW6 (fun _ => none) rfl⟩

/-! Section: Claim C8 (index round trip of the fingerprint) -/

theorem roundSig53_small {n : Nat} (h : n < 2 ^ 53) : roundSig53 n = n := by
  unfold roundSig53
  rw [if_pos h]

theorem mem_saveIndexDoc {s : CacheState} {writeOk : String → Bool} {item : IndexItem}
    (hitem : item ∈ (saveIndexDoc s writeOk).entries) :
    ∃ q ∈ s.entries,
      item.key = q.1 ∧ item.hash = roundSig53 q.2.content_hash := by
  obtain ⟨q, hq, hqe⟩ := List.mem_filterMap.mp hitem
  by_cases hw : writeOk (get_module_path s.cache_dir q.1)
  · rw [if_pos hw] at hqe
    obtain rfl := Option.some.inj hqe
    exact ⟨q, hq, rfl, rfl⟩
  · rw [if_neg hw] at hqe
    exact Option.noConfusion hqe

/-- C8 counterexample: the claim as stated fails at the fingerprint
`2 ^ 53 + 1` (not representable in an IEEE double): `save_to_disk`
stores the hash as `static_cast<double>(content_hash)` through json11
(whose numbers are doubles), so the reloaded entry carries `2 ^ 53`
instead. -/
theorem c8_hash_roundtrip_counterexample :
    cacheC8.entries.map (fun p => p.2.content_hash) = [2 ^ 53 + 1] ∧
    (loadFromDisk emptyCache (some (saveIndexDoc cacheC8 fun _ => true))
        (savedArtifacts cacheC8 fun _ => true)).entries.map
        (fun p => p.2.content_hash) = [2 ^ 53] ∧
    (2 ^ 53 : Nat) ≠ 2 ^ 53 + 1 :=
  ⟨by decide, by decide, by decide⟩

/-- C8 (amended): the `save_to_disk` / `load_from_disk` round trip
restores each surviving entry with its 64-bit fingerprint intact for
every fingerprint exactly representable in an IEEE double — in
particular every value below `2 ^ 53`.  At or above `2 ^ 53` the stored
number is the fingerprint rounded to 53 significant bits (round-half-
to-even), so equality can fail (`c8_hash_roundtrip_counterexample`). -/
theorem c8_amended_hash_roundtrip (s s0 : CacheState) (writeOk : String → Bool)
    (fs : String → Option String)
    (hsmall : ∀ p ∈ s.entries, p.2.content_hash < 2 ^ 53) :
    ∀ p ∈ (loadFromDisk s0 (some (saveIndexDoc s writeOk)) fs).entries,
      ∃ q ∈ s.entries, q.1 = p.1 ∧ p.2.content_hash = q.2.content_hash := by
  have hs' : loadFromDisk s0 (some (saveIndexDoc s writeOk)) fs =
      { s0 with
        entries := loadFold s0.cache_dir fs (saveIndexDoc s writeOk).entries [] } := by
    simp [loadFromDisk, saveIndexDoc]
  rw [hs']
  intro p hp
  rcases mem_loadFold hp with hnil | ⟨item, hitem, hk, hm, heq⟩
  · exact absurd hnil (List.not_mem_nil p)
  · obtain ⟨q, hq, hqk, hqh⟩ := mem_saveIndexDoc hitem
    refine ⟨q, hq, ?_, ?_⟩
    · rw [heq]
      exact hqk.symm
    · have : p.2.content_hash = item.hash := by rw [heq]; rfl
      rw [this, hqh, roundSig53_small (hsmall q hq)]

theorem c8_amended_hash_roundtrip_witness :
    (∀ p ∈ cacheW8.entries, p.2.content_hash < 2 ^ 53) ∧
    (∀ p ∈ (loadFromDisk emptyCache (some (saveIndexDoc cacheW8 fun _ => true))
        fun _ => none).entries,
      ∃ q ∈ cacheW8.entries, q.1 = p.1 ∧ p.2.content_hash = q.2.content_hash) :=
  ⟨by decide,
   c8_amended_hash_roundtrip cacheW8 emptyCache (fun _ => true) (fun _ => none)
     (by decide)⟩

/-! Section: Claim C1 (conservative widening) -/

/-- C1 (evaluation of the code at scenario S4): the driver widens with
`get_all_dependents()` — the DIRECT dependents map — in a single pass
over `to_synthesize`, so after `m1` alone changed it moves only `m3` and
`m4` out of `from_cache` (3 misses, 2 hits).  `m5` is a transitive
dependent of `m1` (`DepReach` below) yet stays in `from_cache`,
contradicting the claimed widening by `all_dependents(m)` with 4 misses
(`m1`, `m3`, `m4`, `m5`) and 1 hit (`m2`). -/
theorem c1_conservative_widening_s4 :
    (conservativeWiden true setsS4 depGraphS4 hashesS4 emptyCache).1.to_synthesize =
      ["m1", "m3", "m4"] ∧
    (conservativeWiden true setsS4 depGraphS4 hashesS4 emptyCache).1.from_cache =
      ["m2", "m5"] ∧
    DepReach depGraphS4.dependents "m1" "m5" ∧
    "m5" ∉ (conservativeWiden true setsS4 depGraphS4 hashesS4 emptyCache).1.to_synthesize ∧
    "m5" ∈ (conservativeWiden true setsS4 depGraphS4 hashesS4 emptyCache).1.from_cache := by
  refine ⟨by decide, by decide, ?_, by decide, by decide⟩
  exact @DepReach.step depGraphS4.dependents "m1" "m3" "m5"
    (@DepReach.step depGraphS4.dependents "m1" "m1" "m3" (DepReach.refl "m1")
      (by decide))
    (by decide)

/-! Section: Claim C9 (re-put overwrites) -/

theorem evict_by_age_of_nonpos (s : CacheState) (now : Int)
    (h : s.max_age_seconds ≤ 0) : evict_by_age s now = s := by
  unfold evict_by_age
  rw [if_pos h]

theorem evictBySize_of_le (s : CacheState)
    (h : total_size_bytes s ≤ s.max_size_bytes) : evictBySize s = s := by
  rw [evictBySize, dif_neg]
  rintro ⟨h1, -⟩
  omega

theorem evict_if_needed_of_within (s : CacheState) (now : Int)
    (hage : s.max_age_seconds ≤ 0)
    (hcnt : s.entries.length ≤ s.max_entries)
    (hsz : total_size_bytes s ≤ s.max_size_bytes) :
    evict_if_needed s now = s := by
  simp only [evict_if_needed]
  rw [evict_by_age_of_nonpos s now hage, if_neg (by omega)]
  exact evictBySize_of_le s hsz

/-- C9: a `put` for a key that is already present (same module name,
fingerprint and transform tag) replaces the stored entry wholesale: the
entry found under the key afterwards is the fresh one, with `hit_count`
reset to `0` and `timestamp` set to the insertion time, and the previous
entry's accumulated statistics are gone.  (Stated under conditions that
keep the fresh entry from being immediately evicted again: age eviction
disabled and the limits respected; the replacement itself —
`entries_[key] = entry` — is unconditional.) -/
theorem c9_reput_overwrites (s : CacheState) (n : String) (hsh : Nat) (t : String)
    (data : String) (now : Int) (old : ZypharCacheEntry)
    (hold : lookupKey s.entries (make_key n hsh t) = some old)
    (hdata : data ≠ "")
    (hage : s.max_age_seconds ≤ 0)
    (hcnt : s.entries.length ≤ s.max_entries)
    (hsz : total_size_bytes
        { s with
          entries := insertEntry s.entries (make_key n hsh t)
            (mkPutEntry n hsh t data now) } ≤ s.max_size_bytes) :
    (putOp s n hsh t (some data) now).1 = true ∧
    lookupKey (putOp s n hsh t (some data) now).2.entries (make_key n hsh t) =
      some (mkPutEntry n hsh t data now) ∧
    (mkPutEntry n hsh t data now).hit_count = 0 ∧
    (mkPutEntry n hsh t data now).timestamp = now := by
  have hput : putOp s n hsh t (some data) now =
      (true, evict_if_needed
        { s with
          entries := insertEntry s.entries (make_key n hsh t)
            (mkPutEntry n hsh t data now),
          module_json_cache := insertEntry s.module_json_cache (make_key n hsh t) data,
          dirty := true } now) := by
    simp [putOp, hdata]
  have heif : evict_if_needed
      { s with
        entries := insertEntry s.entries (make_key n hsh t)
          (mkPutEntry n hsh t data now),
        module_json_cache := insertEntry s.module_json_cache (make_key n hsh t) data,
        dirty := true } now =
      { s with
        entries := insertEntry s.entries (make_key n hsh t)
          (mkPutEntry n hsh t data now),
        module_json_cache := insertEntry s.module_json_cache (make_key n hsh t) data,
        dirty := true } := by
    apply evict_if_needed_of_within
    · exact hage
    · show (insertEntry s.entries (make_key n hsh t)
          (mkPutEntry n hsh t data now)).length ≤ s.max_entries
      rw [insertEntry_length_of_lookup hold]
      exact hcnt
    · exact hsz
  rw [hput, heif]
  exact ⟨rfl, lookupKey_insertEntry_self _ _ _, rfl, rfl⟩

theorem c9_reput_overwrites_witness :
    (lookupKey cacheW9.entries (make_key "m" 3 "post_hierarchy") =
      some { module_name := "m", content_hash := 3, pass_sequence := "post_hierarchy",
             json_data := "old", timestamp := 100, hit_count := 42 } ∧
      ("new" : String) ≠ "" ∧
      cacheW9.max_age_seconds ≤ 0 ∧
      cacheW9.entries.length ≤ cacheW9.max_entries ∧
      total_size_bytes
        { cacheW9 with
          entries := insertEntry cacheW9.entries (make_key "m" 3 "post_hierarchy")
            (mkPutEntry "m" 3 "post_hierarchy" "new" 200) } ≤ cacheW9.max_size_bytes) ∧
    ((putOp cacheW9 "m" 3 "post_hierarchy" (some "new") 200).1 = true ∧
      lookupKey (putOp cacheW9 "m" 3 "post_hierarchy" (some "new") 200).2.entries
          (make_key "m" 3 "post_hierarchy") =
        some (mkPutEntry "m" 3 "post_hierarchy" "new" 200) ∧
      (mkPutEntry "m" 3 "post_hierarchy" "new" 200).hit_count = 0 ∧
      (mkPutEntry "m" 3 "post_hierarchy" "new" 200).timestamp = 200) :=
  ⟨⟨by decide, by decide, by decide, by decide, by decide⟩,
   c9_reput_overwrites cacheW9 "m" 3 "post_hierarchy" "new" 200
     { module_name := "m", content_hash := 3, pass_sequence := "post_hierarchy",
       json_data := "old", timestamp := 100, hit_count := 42 }
     (by decide) (by decide) (by decide) (by decide) (by decide)⟩

end Zyphar
